import Mathlib

/-!
Verification development for the ScriptRipper transcript-analysis pipeline
(`src/ScriptRipper.py`).  Text is modelled as `List Char`; the generation
endpoint, the PDF rendering backend and the wall clock are modelled as
explicit oracles passed to the functions that use them.
-/

set_option maxHeartbeats 1000000
set_option maxRecDepth 100000

namespace ScriptRipper

instance instDecEqExcept {ε α : Type} [DecidableEq ε] [DecidableEq α] :
    DecidableEq (Except ε α) := fun x y =>
  match x, y with
  | .ok a, .ok b =>
    if h : a = b then isTrue (by rw [h])
    else isFalse (fun hc => h (by cases hc; rfl))
  | .error e, .error f =>
    if h : e = f then isTrue (by rw [h])
    else isFalse (fun hc => h (by cases hc; rfl))
  | .ok _, .error _ => isFalse (fun hc => Except.noConfusion hc)
  | .error _, .ok _ => isFalse (fun hc => Except.noConfusion hc)

/-! ## Chunker

Modelled from the spec: the reference calls
`RecursiveCharacterTextSplitter(chunk_size=40000, chunk_overlap=2000)` from
the external `langchain_text_splitters` library, whose code is not part of
this repository.  The model below follows the spec's §4.1 algorithm:
recursively split by a descending-priority separator list (keeping each
separator attached to the segment it ends), hard character slicing as the
base case, then greedily merge adjacent pieces into chunks of at most
`chunk_size` characters, retaining the last `overlap` characters of the
previous chunk as a prefix of the next chunk (the prefix is shortened when
needed so that the new chunk stays within `chunk_size`). -/

/-- Prepend a character to the first segment of a segment list. -/
def consHead (c : Char) : List (List Char) → List (List Char)
  | [] => [[c]]
  | s :: ss => (c :: s) :: ss

/-- Fuelled worker of `splitKeepSep`; every step consumes at least one
character, so fuel `cs.length` always suffices and the fuel-exhausted arm is
unreachable under that fuel. -/
def splitKeepSepGo (sep : List Char) : Nat → List Char → List (List Char)
  | _, [] => []
  | 0, cs => [cs]
  | fuel + 1, c :: rest =>
    if sep.isPrefixOf (c :: rest) ∧ 1 ≤ sep.length then
      sep :: splitKeepSepGo sep fuel (List.drop (sep.length - 1) rest)
    else
      consHead c (splitKeepSepGo sep fuel rest)

/-- Split a text at every occurrence of `sep`, keeping the separator attached
to the end of the segment it terminates.  The empty text yields no segments. -/
def splitKeepSep (sep : List Char) (cs : List Char) : List (List Char) :=
  splitKeepSepGo sep cs.length cs

/-- Fuelled worker of `hardSlice`. -/
def hardSliceGo (S : Nat) : Nat → List Char → List (List Char)
  | _, [] => []
  | 0, cs => [cs]
  | fuel + 1, c :: rest =>
    if (c :: rest).length ≤ S ∨ S = 0 then [c :: rest]
    else (c :: rest).take S :: hardSliceGo S fuel ((c :: rest).drop S)

/-- Hard character slicing: the base case of the recursive splitter when all
separators are exhausted. -/
def hardSlice (S : Nat) (cs : List Char) : List (List Char) :=
  hardSliceGo S cs.length cs

/-- Recursive splitting: try the highest-priority separator; every produced
segment still longer than `S` is resplit with the remaining separators; the
empty separator list falls back to hard character slicing. -/
def recSplit (S : Nat) : List (List Char) → List Char → List (List Char)
  | [], cs => hardSlice S cs
  | sep :: seps, cs =>
    ((splitKeepSep sep cs).map
      (fun seg => if seg.length ≤ S then [seg] else recSplit S seps seg)).flatten

/-- The last `n` characters of a list. -/
def lastChars (n : Nat) (l : List Char) : List Char :=
  l.drop (l.length - n)

/-- Greedy merge of atomic pieces into chunks of at most `S` characters.
When a piece does not fit, the current chunk is closed and the next chunk
starts with an overlap prefix: the last `O` characters of the closed chunk,
shortened so that the new chunk still fits in `S` characters. -/
def mergeLoop (S O : Nat) (cur : List Char) : List (List Char) → List (List Char)
  | [] => [cur]
  | p :: ps =>
    if cur.length + p.length ≤ S then
      mergeLoop S O (cur ++ p) ps
    else
      cur :: mergeLoop S O (lastChars (min O (min cur.length (S - p.length))) cur ++ p) ps

/-- Full chunking: recursive split into atomic pieces, then greedy merging
with overlap. -/
def splitText (seps : List (List Char)) (S O : Nat) (cs : List Char) : List (List Char) :=
  match recSplit S seps cs with
  | [] => []
  | p :: ps => mergeLoop S O p ps

/-- The descending-priority separator list of the reference splitter
(double newline, newline, space; the empty-string separator is the
`hardSlice` base case). -/
def defaultSeparators : List (List Char) :=
  [['\n', '\n'], ['\n'], [' ']]

/-- The chunker as invoked by `analyze_transcript`:
`chunk_size=40000`, `chunk_overlap=2000`. -/
def chunkText (cs : List Char) : List (List Char) :=
  splitText defaultSeparators 40000 2000 cs

/-- Stitching: concatenate the chunks after dropping the first `O` characters
of every chunk after the first. -/
def stitch (O : Nat) : List (List Char) → List Char
  | [] => []
  | c :: cs => c ++ (cs.map (List.drop O)).flatten

/-! ### Chunker lemmas -/

theorem flatten_consHead (c : Char) (ls : List (List Char)) :
    (consHead c ls).flatten = c :: ls.flatten := by
  cases ls <;> simp [consHead]

theorem splitKeepSepGo_fuel (sep : List Char) :
    ∀ (f1 : Nat) (cs : List Char) (f2 : Nat), cs.length ≤ f1 → cs.length ≤ f2 →
      splitKeepSepGo sep f1 cs = splitKeepSepGo sep f2 cs := by
  intro f1
  induction f1 with
  | zero =>
    intro cs f2 h1 _
    have hcs : cs = [] := by cases cs with
      | nil => rfl
      | cons c rest => simp at h1
    subst hcs
    cases f2 <;> rfl
  | succ f ih =>
    intro cs f2 h1 h2
    cases cs with
    | nil => cases f2 <;> rfl
    | cons c rest =>
      cases f2 with
      | zero => simp at h2
      | succ f2' =>
        simp only [splitKeepSepGo]
        by_cases hcond : sep.isPrefixOf (c :: rest) ∧ 1 ≤ sep.length
        · rw [if_pos hcond, if_pos hcond,
            ih (List.drop (sep.length - 1) rest) f2'
              (by simp only [List.length_drop]; simp at h1; omega)
              (by simp only [List.length_drop]; simp at h2; omega)]
        · rw [if_neg hcond, if_neg hcond,
            ih rest f2' (by simp at h1; omega) (by simp at h2; omega)]

theorem splitKeepSep_cons (sep : List Char) (c : Char) (rest : List Char) :
    splitKeepSep sep (c :: rest) =
      if sep.isPrefixOf (c :: rest) ∧ 1 ≤ sep.length then
        sep :: splitKeepSep sep (List.drop (sep.length - 1) rest)
      else consHead c (splitKeepSep sep rest) := by
  show splitKeepSepGo sep (rest.length + 1) (c :: rest) = _
  simp only [splitKeepSepGo]
  by_cases hcond : sep.isPrefixOf (c :: rest) ∧ 1 ≤ sep.length
  · rw [if_pos hcond, if_pos hcond]
    rw [splitKeepSepGo_fuel sep rest.length (List.drop (sep.length - 1) rest) _
          (by simp only [List.length_drop]; omega) (Nat.le_refl _)]
    rfl
  · rw [if_neg hcond, if_neg hcond]
    rfl

theorem flatten_splitKeepSep (sep : List Char) (cs : List Char) :
    (splitKeepSep sep cs).flatten = cs := by
  suffices h : ∀ (n : Nat) (l : List Char), l.length ≤ n →
      (splitKeepSep sep l).flatten = l from h cs.length cs (Nat.le_refl _)
  intro n
  induction n with
  | zero =>
    intro l h
    have : l = [] := by cases l with
      | nil => rfl
      | cons c rest => simp at h
    subst this; rfl
  | succ n ih =>
    intro l h
    cases l with
    | nil => rfl
    | cons c rest =>
      rw [splitKeepSep_cons]
      by_cases hcond : sep.isPrefixOf (c :: rest) ∧ 1 ≤ sep.length
      · rw [if_pos hcond]
        have hpre : sep <+: c :: rest := List.isPrefixOf_iff_prefix.mp hcond.1
        have happ := List.prefix_iff_eq_append.mp hpre
        have hdrop : List.drop (sep.length - 1) rest = List.drop sep.length (c :: rest) := by
          cases hlen : sep.length with
          | zero => omega
          | succ m => simp [hlen]
        rw [List.flatten_cons,
          ih (List.drop (sep.length - 1) rest)
            (by simp only [List.length_drop]; simp at h; omega),
          hdrop, happ]
      · rw [if_neg hcond, flatten_consHead, ih rest (by simp at h; omega)]

theorem splitKeepSep_noInfix (sep : List Char) (cs : List Char)
    (hni : ¬ sep <:+: cs) (hne : cs ≠ []) :
    splitKeepSep sep cs = [cs] := by
  suffices h : ∀ (n : Nat) (l : List Char), l.length ≤ n → ¬ sep <:+: l → l ≠ [] →
      splitKeepSep sep l = [l] from h cs.length cs (Nat.le_refl _) hni hne
  intro n
  induction n with
  | zero =>
    intro l h hni' hne'
    have : l = [] := by cases l with
      | nil => rfl
      | cons c rest => simp at h
    exact absurd this hne'
  | succ n ih =>
    intro l h hni' hne'
    cases l with
    | nil => exact absurd rfl hne'
    | cons c rest =>
      rw [splitKeepSep_cons]
      have hcond : ¬ (sep.isPrefixOf (c :: rest) ∧ 1 ≤ sep.length) := by
        rintro ⟨hpre, _⟩
        exact hni' ⟨[], List.drop sep.length (c :: rest), by
          simpa using (List.prefix_iff_eq_append.mp (List.isPrefixOf_iff_prefix.mp hpre))⟩
      rw [if_neg hcond]
      cases rest with
      | nil => rfl
      | cons x xs =>
        have hni2 : ¬ sep <:+: x :: xs := by
          rintro ⟨s, t, hst⟩
          exact hni' ⟨c :: s, t, by rw [← hst]; simp⟩
        rw [ih (x :: xs) (by simp at h ⊢; omega) hni2 (by simp)]
        rfl

theorem splitKeepSep_single (c : Char) (a b : List Char) (ha : c ∉ a) :
    splitKeepSep [c] (a ++ c :: b) = (a ++ [c]) :: splitKeepSep [c] b := by
  induction a with
  | nil =>
    rw [List.nil_append, splitKeepSep_cons, if_pos (by simp [List.isPrefixOf])]
    simp
  | cons x a' ih =>
    have hx : x ≠ c := fun h => ha (by simp [h])
    rw [List.cons_append, splitKeepSep_cons,
      if_neg (by simp [List.isPrefixOf, hx.symm])]
    rw [ih (fun h => ha (by simp [h]))]
    simp [consHead]

theorem hardSliceGo_fuel (S : Nat) :
    ∀ (f1 : Nat) (cs : List Char) (f2 : Nat), cs.length ≤ f1 → cs.length ≤ f2 →
      hardSliceGo S f1 cs = hardSliceGo S f2 cs := by
  intro f1
  induction f1 with
  | zero =>
    intro cs f2 h1 _
    have hcs : cs = [] := by cases cs with
      | nil => rfl
      | cons c rest => simp at h1
    subst hcs
    cases f2 <;> rfl
  | succ f ih =>
    intro cs f2 h1 h2
    cases cs with
    | nil => cases f2 <;> rfl
    | cons c rest =>
      cases f2 with
      | zero => simp at h2
      | succ f2' =>
        simp only [hardSliceGo]
        by_cases hcond : (c :: rest).length ≤ S ∨ S = 0
        · rw [if_pos hcond, if_pos hcond]
        · rw [if_neg hcond, if_neg hcond,
            ih ((c :: rest).drop S) f2'
              (by simp only [List.length_drop]; simp at h1 ⊢; omega)
              (by simp only [List.length_drop]; simp at h2 ⊢; omega)]

theorem hardSlice_cons (S : Nat) (c : Char) (rest : List Char) :
    hardSlice S (c :: rest) =
      if (c :: rest).length ≤ S ∨ S = 0 then [c :: rest]
      else (c :: rest).take S :: hardSlice S ((c :: rest).drop S) := by
  show hardSliceGo S (rest.length + 1) (c :: rest) = _
  simp only [hardSliceGo]
  by_cases hcond : (c :: rest).length ≤ S ∨ S = 0
  · rw [if_pos hcond, if_pos hcond]
  · rw [if_neg hcond, if_neg hcond,
      hardSliceGo_fuel S rest.length ((c :: rest).drop S) _
        (by simp only [List.length_drop]; simp; omega) (Nat.le_refl _)]
    rfl

theorem flatten_hardSlice (S : Nat) (cs : List Char) :
    (hardSlice S cs).flatten = cs := by
  suffices h : ∀ (n : Nat) (l : List Char), l.length ≤ n →
      (hardSlice S l).flatten = l from h cs.length cs (Nat.le_refl _)
  intro n
  induction n with
  | zero =>
    intro l h
    have : l = [] := by cases l with
      | nil => rfl
      | cons c rest => simp at h
    subst this; rfl
  | succ n ih =>
    intro l h
    cases l with
    | nil => rfl
    | cons c rest =>
      rw [hardSlice_cons]
      by_cases hcond : (c :: rest).length ≤ S ∨ S = 0
      · rw [if_pos hcond]; simp
      · rw [if_neg hcond, List.flatten_cons,
          ih ((c :: rest).drop S) (by simp only [List.length_drop]; simp at h ⊢; omega)]
        simp

theorem hardSlice_length_le (S : Nat) (hS : 1 ≤ S) (cs : List Char) :
    ∀ p ∈ hardSlice S cs, p.length ≤ S := by
  suffices h : ∀ (n : Nat) (l : List Char), l.length ≤ n →
      ∀ p ∈ hardSlice S l, p.length ≤ S from h cs.length cs (Nat.le_refl _)
  intro n
  induction n with
  | zero =>
    intro l h p hp
    have : l = [] := by cases l with
      | nil => rfl
      | cons c rest => simp at h
    subst this; simp [hardSlice, hardSliceGo] at hp
  | succ n ih =>
    intro l h p hp
    cases l with
    | nil => simp [hardSlice, hardSliceGo] at hp
    | cons c rest =>
      rw [hardSlice_cons] at hp
      by_cases hcond : (c :: rest).length ≤ S ∨ S = 0
      · rw [if_pos hcond] at hp
        rcases List.mem_singleton.mp hp with rfl
        rcases hcond with h2 | h2
        · exact h2
        · omega
      · rw [if_neg hcond] at hp
        rcases List.mem_cons.mp hp with rfl | hp
        · simp [List.length_take]
        · exact ih ((c :: rest).drop S) (by simp only [List.length_drop]; simp at h ⊢; omega) p hp

theorem flatten_recSplit (S : Nat) (seps : List (List Char)) (cs : List Char) :
    (recSplit S seps cs).flatten = cs := by
  induction seps generalizing cs with
  | nil => exact flatten_hardSlice S cs
  | cons sep seps ih =>
    rw [recSplit]
    have key : ∀ segs : List (List Char),
        ((segs.map (fun seg => if seg.length ≤ S then [seg] else recSplit S seps seg)).flatten).flatten
          = segs.flatten := by
      intro segs
      induction segs with
      | nil => simp
      | cons s ss ihs =>
        simp only [List.map_cons, List.flatten_cons, List.flatten_append, ihs]
        by_cases hs : s.length ≤ S
        · simp [hs]
        · simp [hs, ih]
    rw [key (splitKeepSep sep cs), flatten_splitKeepSep]

theorem recSplit_length_le (S : Nat) (hS : 1 ≤ S) (seps : List (List Char)) (cs : List Char) :
    ∀ p ∈ recSplit S seps cs, p.length ≤ S := by
  induction seps generalizing cs with
  | nil => exact hardSlice_length_le S hS cs
  | cons sep seps ih =>
    intro p hp
    rw [recSplit] at hp
    rcases List.mem_flatten.mp hp with ⟨l, hl, hpl⟩
    rcases List.mem_map.mp hl with ⟨seg, _, rfl⟩
    by_cases hs : seg.length ≤ S
    · simp only [if_pos hs, List.mem_singleton] at hpl
      subst hpl; exact hs
    · rw [if_neg hs] at hpl
      exact ih seg p hpl

theorem mergeLoop_ne_nil (S O : Nat) (cur : List Char) (ps : List (List Char)) :
    mergeLoop S O cur ps ≠ [] := by
  cases ps with
  | nil => simp [mergeLoop]
  | cons p ps =>
    rw [mergeLoop]
    split <;> simp_all [mergeLoop_ne_nil S O]

theorem lastChars_length (n : Nat) (l : List Char) :
    (lastChars n l).length = min n l.length := by
  simp [lastChars, List.length_drop]; omega

theorem mergeLoop_length_le (S O : Nat) (ps : List (List Char)) (cur : List Char)
    (hcur : cur.length ≤ S) (hps : ∀ p ∈ ps, p.length ≤ S) :
    ∀ c ∈ mergeLoop S O cur ps, c.length ≤ S := by
  induction ps generalizing cur with
  | nil => simpa [mergeLoop] using hcur
  | cons p ps ih =>
    have hp : p.length ≤ S := hps p (by simp)
    have hps' : ∀ q ∈ ps, q.length ≤ S := fun q hq => hps q (by simp [hq])
    rw [mergeLoop]
    split
    · exact ih (cur ++ p) (by simpa using ‹cur.length + p.length ≤ S›) hps'
    · intro c hc
      rcases List.mem_cons.mp hc with rfl | hc
      · exact hcur
      · refine ih _ ?_ hps' c hc
        have := lastChars_length (min O (min cur.length (S - p.length))) cur
        simp only [List.length_append, this]
        omega

theorem drop_lastChars_append (O : Nat) (cur p : List Char) (h : O ≤ cur.length) :
    (lastChars O cur ++ p).drop O = p := by
  have hlen : (lastChars O cur).length = O := by rw [lastChars_length]; omega
  rw [List.drop_append_eq_append_drop, hlen]
  rw [List.drop_eq_nil_of_le (le_of_eq hlen)]
  simp

theorem mergeLoop_map_drop (S O : Nat) (hOS : O ≤ S) (ps : List (List Char)) :
    ∀ cur : List Char, O ≤ cur.length → cur.length ≤ S →
    (∀ p ∈ ps, p.length ≤ S - O) →
    ((mergeLoop S O cur ps).map (List.drop O)).flatten = cur.drop O ++ ps.flatten := by
  induction ps with
  | nil => intro cur _ _ _; simp [mergeLoop]
  | cons p ps ih =>
    intro cur h1 h2 h3
    have hp : p.length ≤ S - O := h3 p (by simp)
    have hps : ∀ q ∈ ps, q.length ≤ S - O := fun q hq => h3 q (by simp [hq])
    rw [mergeLoop]
    split
    case isTrue hfit =>
      rw [ih (cur ++ p) (by simp; omega) (by simpa using hfit) hps]
      rw [List.drop_append_eq_append_drop]
      have hO0 : O - cur.length = 0 := by omega
      simp [hO0]
    case isFalse hfit =>
      have hk : min O (min cur.length (S - p.length)) = O := by omega
      rw [hk]
      simp only [List.map_cons, List.flatten_cons]
      rw [ih (lastChars O cur ++ p)
            (by simp [lastChars_length]; omega)
            (by simp [lastChars_length]; omega) hps]
      rw [drop_lastChars_append O cur p h1]

theorem stitch_mergeLoop (S O : Nat) (hOS : O ≤ S) (ps : List (List Char)) :
    ∀ cur : List Char, cur.length ≤ S → (∀ p ∈ ps, p.length ≤ S - O) →
    stitch O (mergeLoop S O cur ps) = cur ++ ps.flatten := by
  induction ps with
  | nil => intro cur _ _; simp [mergeLoop, stitch]
  | cons p ps ih =>
    intro cur h2 h3
    have hp : p.length ≤ S - O := h3 p (by simp)
    have hps : ∀ q ∈ ps, q.length ≤ S - O := fun q hq => h3 q (by simp [hq])
    rw [mergeLoop]
    split
    case isTrue hfit =>
      rw [ih (cur ++ p) (by simpa using hfit) hps]
      simp
    case isFalse hfit =>
      have hk : min O (min cur.length (S - p.length)) = O := by omega
      rw [hk, stitch]
      rw [mergeLoop_map_drop S O hOS ps (lastChars O cur ++ p)
            (by simp [lastChars_length]; omega)
            (by simp [lastChars_length]; omega) hps]
      rw [drop_lastChars_append O cur p (by omega)]
      simp

theorem splitText_ne_nil (seps : List (List Char)) (S O : Nat) (cs : List Char)
    (h : cs ≠ []) : splitText seps S O cs ≠ [] := by
  unfold splitText
  cases hr : recSplit S seps cs with
  | nil =>
    exact absurd (by rw [← flatten_recSplit S seps cs, hr]; rfl) h
  | cons p ps => exact mergeLoop_ne_nil S O p ps

theorem splitText_length_le (seps : List (List Char)) (S O : Nat) (hS : 1 ≤ S)
    (cs : List Char) : ∀ c ∈ splitText seps S O cs, c.length ≤ S := by
  unfold splitText
  cases hr : recSplit S seps cs with
  | nil => simp
  | cons p ps =>
    have hall := recSplit_length_le S hS seps cs
    rw [hr] at hall
    exact mergeLoop_length_le S O ps p (hall p (by simp))
      (fun q hq => hall q (by simp [hq]))

theorem stitch_splitText (seps : List (List Char)) (S O : Nat) (hOS : O ≤ S)
    (cs : List Char)
    (hpieces : ∀ p ∈ recSplit S seps cs, p.length ≤ S - O) :
    stitch O (splitText seps S O cs) = cs := by
  unfold splitText
  cases hr : recSplit S seps cs with
  | nil =>
    have hcs : cs = [] := by rw [← flatten_recSplit S seps cs, hr]; rfl
    simp [stitch, hcs]
  | cons p ps =>
    have hp : p.length ≤ S := le_trans (hpieces p (by rw [hr]; simp)) (by omega)
    rw [stitch_mergeLoop S O hOS ps p hp
          (fun q hq => hpieces q (by rw [hr]; simp [hq]))]
    rw [show p ++ ps.flatten = (p :: ps).flatten from rfl, ← hr,
        flatten_recSplit]

/-! ## Markdown to plaintext transform (`convert_md_to_txt`)

Faithful model of the chain of `re.sub` calls in `convert_md_to_txt`
(src/ScriptRipper.py lines 44-53), with Python regex semantics: leftmost
match, scanning resumes after the replaced match, `.` does not match a
newline, `(.*?)` is non-greedy, and `^` with `re.MULTILINE` matches at the
start of the text and after each newline. -/

/-- The backtick character (inline-code delimiter). -/
def bt : Char := Char.ofNat 96

/-- Length of the leading run of consecutive hash characters. -/
def hashRun : List Char → Nat
  | [] => 0
  | c :: rest => if c = '#' then hashRun rest + 1 else 0

/-- Fuelled worker of `stripHashScan`. -/
def stripHashScanGo : Nat → List Char → List Char
  | _, [] => []
  | 0, cs => cs
  | fuel + 1, c :: rest =>
    if c = '#' ∧ hashRun rest ≤ 5 ∧ (rest.drop (hashRun rest)).head? = some ' ' then
      stripHashScanGo fuel (rest.drop (hashRun rest + 1))
    else c :: stripHashScanGo fuel rest

/-- The substitution `re.sub(r'#{1,6} ', '', text)`: scanning left to right,
a match starts at a position holding a run of 1 to 6 hashes directly
followed by a space (a longer run cannot match at its own start, because
after backtracking the character following the tried hashes is again a
hash). -/
def stripHashScan (cs : List Char) : List Char :=
  stripHashScanGo cs.length cs

/-- Decides whether a hash-space match of `#{1,6} ` starts at the head. -/
def hashMatchB (cs : List Char) : Bool :=
  decide (1 ≤ hashRun cs ∧ hashRun cs ≤ 6 ∧ (cs.drop (hashRun cs)).head? = some ' ')

/-- Position of the leftmost hash-space match. -/
def firstHashPosAux : List Char → Option Nat
  | [] => none
  | c :: rest =>
    if hashMatchB (c :: rest) then some 0
    else (firstHashPosAux rest).map (· + 1)

/-- Fuelled worker of `stripHashLeftmost`. -/
def stripHashLeftmostGo : Nat → List Char → List Char
  | _, [] => []
  | 0, cs => cs
  | fuel + 1, c :: rest =>
    match firstHashPosAux (c :: rest) with
    | none => c :: rest
    | some p =>
        (c :: rest).take p ++
          stripHashLeftmostGo fuel ((c :: rest).drop (p + hashRun ((c :: rest).drop p) + 1))

/-- Leftmost-match formulation of the `#{1,6} ` substitution: repeatedly
locate the leftmost match and splice it out, continuing after the match. -/
def stripHashLeftmost (cs : List Char) : List Char :=
  stripHashLeftmostGo cs.length cs

/-- Finds the non-greedy closing delimiter: returns the (newline-free)
inner text and the remainder after the closing delimiter. -/
def findCloseNoNl (close : List Char) : List Char → Option (List Char × List Char)
  | [] => none
  | c :: rest =>
    if close.isPrefixOf (c :: rest) then some ([], List.drop close.length (c :: rest))
    else if c = '\n' then none
    else (findCloseNoNl close rest).map (fun pr => (c :: pr.1, pr.2))

/-- One pass of `re.sub(delim + '(.*?)' + delim, r'\1', text)` with fuel
(the fuel `cs.length` of `subPair` always suffices, since every step
consumes at least one character). -/
def subPairFuel (delim : List Char) : Nat → List Char → List Char
  | 0, cs => cs
  | _ + 1, [] => []
  | fuel + 1, c :: rest =>
    if delim.isPrefixOf (c :: rest) then
      match findCloseNoNl delim (List.drop delim.length (c :: rest)) with
      | some (inner, after) => inner ++ subPairFuel delim fuel after
      | none => c :: subPairFuel delim fuel rest
    else c :: subPairFuel delim fuel rest

/-- Substitution removing a matched pair of delimiters while keeping the
inner text, as `re.sub` does for `\*\*(.*?)\*\*`, `\*(.*?)\*`, and the
inline-code pattern. -/
def subPair (delim : List Char) (cs : List Char) : List Char :=
  subPairFuel delim cs.length cs

/-- The substitution `re.sub(r'^- ', '', text, flags=re.MULTILINE)`.
The Boolean argument tracks whether the scan is at a line start. -/
def stripDash : Bool → List Char → List Char
  | _, [] => []
  | true, '-' :: ' ' :: rest => stripDash false rest
  | _, '\n' :: rest => '\n' :: stripDash true rest
  | _, c :: rest => c :: stripDash false rest

/-- The substitution `re.sub(r'\|', ' | ', text)`. -/
def padPipes : List Char → List Char
  | [] => []
  | c :: rest => if c = '|' then ' ' :: '|' :: ' ' :: padPipes rest else c :: padPipes rest

/-- `convert_md_to_txt` from src/ScriptRipper.py: the six `re.sub`
substitutions applied in source order. -/
def convert_md_to_txt (md_content : List Char) : List Char :=
  padPipes (stripDash true (subPair [bt] (subPair ['*']
    (subPair ['*', '*'] (stripHashScan md_content)))))

/-- Fuelled worker of `lineHashStrip`. -/
def lineHashStripGo : Nat → Bool → List Char → List Char
  | _, _, [] => []
  | 0, _, cs => cs
  | fuel + 1, atStart, c :: rest =>
    if atStart ∧ c = '#' ∧ hashRun rest ≤ 5 ∧ (rest.drop (hashRun rest)).head? = some ' ' then
      lineHashStripGo fuel false (rest.drop (hashRun rest + 1))
    else if c = '\n' then '\n' :: lineHashStripGo fuel true rest
    else c :: lineHashStripGo fuel false rest

/-- Modelled from the claim wording of C6: the same transform, but removing
heading markers only when they are leading, i.e. at the start of a line
(1 to 6 hashes followed by a space). -/
def lineHashStrip (atStart : Bool) (cs : List Char) : List Char :=
  lineHashStripGo cs.length atStart cs

/-- The plaintext transform exactly as claim C6 describes it: heading
markers removed only as line-leading prefixes, the other steps unchanged. -/
def claimedMdToTxt (md : List Char) : List Char :=
  padPipes (stripDash true (subPair [bt] (subPair ['*']
    (subPair ['*', '*'] (lineHashStrip true md)))))

/-- The plaintext transform as the amended claim describes it: hash-space
runs removed at every leftmost match position, anywhere in the text. -/
def amendedMdToTxt (md : List Char) : List Char :=
  padPipes (stripDash true (subPair [bt] (subPair ['*']
    (subPair ['*', '*'] (stripHashLeftmost md)))))

/-! ### Equivalence of the scanning and leftmost-match hash substitutions -/

theorem stripHashScanGo_fuel :
    ∀ (f1 : Nat) (cs : List Char) (f2 : Nat), cs.length ≤ f1 → cs.length ≤ f2 →
      stripHashScanGo f1 cs = stripHashScanGo f2 cs := by
  intro f1
  induction f1 with
  | zero =>
    intro cs f2 h1 _
    have hcs : cs = [] := by cases cs with
      | nil => rfl
      | cons c rest => simp at h1
    subst hcs
    cases f2 <;> rfl
  | succ f ih =>
    intro cs f2 h1 h2
    cases cs with
    | nil => cases f2 <;> rfl
    | cons c rest =>
      cases f2 with
      | zero => simp at h2
      | succ f2' =>
        simp only [stripHashScanGo]
        by_cases hcond : c = '#' ∧ hashRun rest ≤ 5 ∧
            (rest.drop (hashRun rest)).head? = some ' '
        · rw [if_pos hcond, if_pos hcond,
            ih (rest.drop (hashRun rest + 1)) f2'
              (by simp only [List.length_drop]; simp at h1; omega)
              (by simp only [List.length_drop]; simp at h2; omega)]
        · rw [if_neg hcond, if_neg hcond,
            ih rest f2' (by simp at h1; omega) (by simp at h2; omega)]

theorem stripHashScan_cons (c : Char) (rest : List Char) :
    stripHashScan (c :: rest) =
      if c = '#' ∧ hashRun rest ≤ 5 ∧ (rest.drop (hashRun rest)).head? = some ' ' then
        stripHashScan (rest.drop (hashRun rest + 1))
      else c :: stripHashScan rest := by
  show stripHashScanGo (rest.length + 1) (c :: rest) = _
  simp only [stripHashScanGo]
  by_cases hcond : c = '#' ∧ hashRun rest ≤ 5 ∧
      (rest.drop (hashRun rest)).head? = some ' '
  · rw [if_pos hcond, if_pos hcond,
      stripHashScanGo_fuel rest.length (rest.drop (hashRun rest + 1)) _
        (by simp only [List.length_drop]; omega) (Nat.le_refl _)]
    rfl
  · rw [if_neg hcond, if_neg hcond]
    rfl

theorem stripHashLeftmostGo_fuel :
    ∀ (f1 : Nat) (cs : List Char) (f2 : Nat), cs.length ≤ f1 → cs.length ≤ f2 →
      stripHashLeftmostGo f1 cs = stripHashLeftmostGo f2 cs := by
  intro f1
  induction f1 with
  | zero =>
    intro cs f2 h1 _
    have hcs : cs = [] := by cases cs with
      | nil => rfl
      | cons c rest => simp at h1
    subst hcs
    cases f2 <;> rfl
  | succ f ih =>
    intro cs f2 h1 h2
    cases cs with
    | nil => cases f2 <;> rfl
    | cons c rest =>
      cases f2 with
      | zero => simp at h2
      | succ f2' =>
        simp only [stripHashLeftmostGo]
        cases haux : firstHashPosAux (c :: rest) with
        | none => rfl
        | some p =>
          show (c :: rest).take p ++
              stripHashLeftmostGo f ((c :: rest).drop (p + hashRun ((c :: rest).drop p) + 1)) =
            (c :: rest).take p ++
              stripHashLeftmostGo f2' ((c :: rest).drop (p + hashRun ((c :: rest).drop p) + 1))
          rw [ih ((c :: rest).drop (p + hashRun ((c :: rest).drop p) + 1)) f2'
            (by simp only [List.length_drop, List.length_cons]; simp at h1; omega)
            (by simp only [List.length_drop, List.length_cons]; simp at h2; omega)]

theorem stripHashLeftmost_cons (c : Char) (rest : List Char) :
    stripHashLeftmost (c :: rest) =
      match firstHashPosAux (c :: rest) with
      | none => c :: rest
      | some p =>
          (c :: rest).take p ++
            stripHashLeftmost ((c :: rest).drop (p + hashRun ((c :: rest).drop p) + 1)) := by
  show stripHashLeftmostGo (rest.length + 1) (c :: rest) = _
  simp only [stripHashLeftmostGo]
  cases haux : firstHashPosAux (c :: rest) with
  | none => rfl
  | some p =>
    show (c :: rest).take p ++
        stripHashLeftmostGo rest.length ((c :: rest).drop (p + hashRun ((c :: rest).drop p) + 1)) =
      (c :: rest).take p ++
        stripHashLeftmost ((c :: rest).drop (p + hashRun ((c :: rest).drop p) + 1))
    rw [stripHashLeftmostGo_fuel rest.length
      ((c :: rest).drop (p + hashRun ((c :: rest).drop p) + 1)) _
      (by simp only [List.length_drop, List.length_cons]; omega) (Nat.le_refl _)]
    rfl

theorem hashRun_cons_hash (rest : List Char) :
    hashRun ('#' :: rest) = hashRun rest + 1 := by
  simp [hashRun]

theorem hashRun_cons_ne (c : Char) (rest : List Char) (hc : c ≠ '#') :
    hashRun (c :: rest) = 0 := by
  simp [hashRun, hc]

theorem hashMatchB_cons (c : Char) (rest : List Char) :
    hashMatchB (c :: rest) = true ↔
      (c = '#' ∧ hashRun rest ≤ 5 ∧ (rest.drop (hashRun rest)).head? = some ' ') := by
  by_cases hc : c = '#'
  · subst hc
    rw [hashMatchB, decide_eq_true_eq, hashRun_cons_hash]
    constructor
    · rintro ⟨_, h6, hsp⟩
      exact ⟨rfl, by omega, by simpa [List.drop_succ_cons] using hsp⟩
    · rintro ⟨_, h5, hsp⟩
      exact ⟨by omega, by omega, by simpa [List.drop_succ_cons] using hsp⟩
  · rw [hashMatchB, decide_eq_true_eq, hashRun_cons_ne c rest hc]
    constructor
    · rintro ⟨h1, _, _⟩; omega
    · rintro ⟨hc', _, _⟩; exact absurd hc' hc

theorem stripHashLeftmost_of_none (cs : List Char)
    (h : firstHashPosAux cs = none) : stripHashLeftmost cs = cs := by
  cases cs with
  | nil => rfl
  | cons c rest => rw [stripHashLeftmost_cons, h]

theorem stripHashLeftmost_cons_noMatch (c : Char) (rest : List Char)
    (hm : hashMatchB (c :: rest) = false) :
    stripHashLeftmost (c :: rest) = c :: stripHashLeftmost rest := by
  have haux : firstHashPosAux (c :: rest) = (firstHashPosAux rest).map (· + 1) := by
    rw [firstHashPosAux, if_neg (by simp [hm])]
  cases hr : firstHashPosAux rest with
  | none =>
    rw [stripHashLeftmost_cons, haux, hr]
    show c :: rest = c :: stripHashLeftmost rest
    rw [stripHashLeftmost_of_none rest hr]
  | some q =>
    cases rest with
    | nil => simp [firstHashPosAux] at hr
    | cons x xs =>
      rw [stripHashLeftmost_cons, haux, hr]
      show (c :: x :: xs).take (q + 1) ++
          stripHashLeftmost ((c :: x :: xs).drop
            ((q + 1) + hashRun ((c :: x :: xs).drop (q + 1)) + 1))
        = c :: stripHashLeftmost (x :: xs)
      rw [stripHashLeftmost_cons x xs, hr]
      show (c :: x :: xs).take (q + 1) ++
          stripHashLeftmost ((c :: x :: xs).drop
            ((q + 1) + hashRun ((c :: x :: xs).drop (q + 1)) + 1))
        = c :: ((x :: xs).take q ++ stripHashLeftmost ((x :: xs).drop
            (q + hashRun ((x :: xs).drop q) + 1)))
      rw [List.take_succ_cons, List.drop_succ_cons]
      rw [show List.drop (q + 1) (c :: x :: xs) = List.drop q (x :: xs) by
            rw [List.drop_succ_cons]]
      rw [show q + 1 + hashRun (List.drop q (x :: xs))
            = q + hashRun (List.drop q (x :: xs)) + 1 by omega]
      simp

theorem stripHashLeftmost_cons_match (c : Char) (rest : List Char)
    (hm : hashMatchB (c :: rest) = true) :
    stripHashLeftmost (c :: rest) = stripHashLeftmost (rest.drop (hashRun rest + 1)) := by
  obtain ⟨hc, _, _⟩ := (hashMatchB_cons c rest).mp hm
  have haux : firstHashPosAux (c :: rest) = some 0 := by
    rw [firstHashPosAux, if_pos hm]
  rw [stripHashLeftmost_cons, haux]
  subst hc
  simp [hashRun, List.drop_succ_cons]

theorem stripHashScan_eq_leftmost_aux :
    ∀ (n : Nat) (cs : List Char), cs.length ≤ n →
      stripHashScan cs = stripHashLeftmost cs := by
  intro n
  induction n with
  | zero =>
    intro cs h
    have : cs = [] := List.length_eq_zero.mp (Nat.le_antisymm h (Nat.zero_le _))
    subst this
    rfl
  | succ n ih =>
    intro cs h
    cases cs with
    | nil => rfl
    | cons c rest =>
      cases hm : hashMatchB (c :: rest) with
      | true =>
        obtain ⟨hc, h5, hsp⟩ := (hashMatchB_cons c rest).mp hm
        rw [stripHashScan_cons, if_pos ⟨hc, h5, hsp⟩, stripHashLeftmost_cons_match c rest hm]
        exact ih _ (by simp only [List.length_drop]; simp at h; omega)
      | false =>
        have hnot : ¬ (c = '#' ∧ hashRun rest ≤ 5 ∧ (rest.drop (hashRun rest)).head? = some ' ') := by
          intro hcontra
          rw [(hashMatchB_cons c rest).mpr hcontra] at hm
          exact absurd hm (by simp)
        rw [stripHashScan_cons, if_neg hnot, stripHashLeftmost_cons_noMatch c rest hm]
        rw [ih rest (by simp at h; omega)]

theorem stripHashScan_eq_leftmost (cs : List Char) :
    stripHashScan cs = stripHashLeftmost cs :=
  stripHashScan_eq_leftmost_aux cs.length cs (Nat.le_refl _)

/-! ## Generation client, task runner and pipeline orchestrator

Model of `analyze_transcript` (src/ScriptRipper.py lines 138-225).  The
remote generation endpoint is an oracle `gen` mapping a prompt to either a
response (text plus optional usage token count) or a failure; the PDF
rendering backend is an oracle `render`; the wall-clock timestamp is a
parameter.  The catch-all `except` of `analyze_transcript` returns
`(False, 0, [], None)`. -/

/-- Shorthand turning a string literal into the character-list text model. -/
def lstr (s : String) : List Char := s.data

/-- A response of the generation endpoint: text plus optional usage
metadata (`usage_metadata.total_token_count`). -/
structure GenResponse where
  text : List Char
  usage : Option Nat
  deriving DecidableEq

/-- The generation endpoint oracle: `model.generate_content` either returns
a response or raises. -/
abbrev Gen := List Char → Except Unit GenResponse

/-- The chunk-scoped prompt built in the map phase (line 178). -/
def chunkPromptOf (original_prompt chunk : List Char) : List Char :=
  lstr "You are analyzing one small chunk of a larger document. Perform the following instruction ONLY on the provided chunk.\n\nINSTRUCTION: \"" ++
    original_prompt ++ lstr "\"\n\n--- CHUNK OF TRANSCRIPT ---\n" ++ chunk

/-- The synthesis prompt built in the reduce phase (line 187); its
raw-results segment is the separator-free concatenation of the
intermediate results. -/
def synthesisPromptOf (master_prompt original_prompt : List Char)
    (intermediate_results : List (List Char)) : List Char :=
  master_prompt ++
    lstr "\n\nYou have analyzed a document chunk by chunk. Below are the raw results. Synthesize them into a single, cohesive, de-duplicated final report that fulfills the original request.\n\nORIGINAL REQUEST: \"" ++
    original_prompt ++ lstr "\"\n\n--- RAW INTERMEDIATE RESULTS ---\n" ++
    intermediate_results.flatten

/-- Map phase (lines 176-183): one generation call per chunk, in order;
returns the collected texts, the token sum (missing usage counts as 0) and
the trace of issued prompts. -/
def mapPhase (gen : Gen) (original_prompt : List Char) :
    List (List Char) → Except Unit (List (List Char) × Nat × List (List Char))
  | [] => .ok ([], 0, [])
  | chunk :: rest => do
    let r ← gen (chunkPromptOf original_prompt chunk)
    let (rs, t, calls) ← mapPhase gen original_prompt rest
    .ok (r.text :: rs, r.usage.getD 0 + t, chunkPromptOf original_prompt chunk :: calls)

/-- Result of one task: synthesized content, token cost, issued prompts. -/
structure TaskOutcome where
  content : List Char
  tokens : Nat
  calls : List (List Char)
  deriving DecidableEq

/-- One task of the map-reduce loop (lines 174-192): map over all chunks,
then a single synthesis call whose text is the task's content. -/
def runTask (gen : Gen) (master_prompt original_prompt : List Char)
    (chunks : List (List Char)) : Except Unit TaskOutcome := do
  let (results, mapTokens, mapCalls) ← mapPhase gen original_prompt chunks
  let sp := synthesisPromptOf master_prompt original_prompt results
  let fr ← gen sp
  .ok ⟨fr.text, mapTokens + fr.usage.getD 0, mapCalls ++ [sp]⟩

/-- A task record of the selected profile. -/
structure Task where
  task_name : List Char
  prompt : List Char
  deriving DecidableEq

/-- A wall-clock reading, formatted with `strftime`. -/
structure Timestamp where
  year : Nat
  month : Nat
  day : Nat
  hour : Nat
  minute : Nat
  second : Nat
  deriving DecidableEq

/-- Zero padding of a digit string to width `w`, as `strftime` does. -/
def padZeros (w : Nat) (ds : List Char) : List Char :=
  List.replicate (w - ds.length) '0' ++ ds

/-- The `"%Y-%m-%d_%H-%M-%S"` timestamp format of line 146. -/
def fmtTimestamp (ts : Timestamp) : List Char :=
  padZeros 4 (Nat.toDigits 10 ts.year) ++
    ('-' :: padZeros 2 (Nat.toDigits 10 ts.month)) ++
    ('-' :: padZeros 2 (Nat.toDigits 10 ts.day)) ++
    ('_' :: padZeros 2 (Nat.toDigits 10 ts.hour)) ++
    ('-' :: padZeros 2 (Nat.toDigits 10 ts.minute)) ++
    ('-' :: padZeros 2 (Nat.toDigits 10 ts.second))

/-- ASCII lowering, modelling Python `str.lower()` on ASCII task names. -/
def asciiLower (c : Char) : Char :=
  if 'A' ≤ c ∧ c ≤ 'Z' then Char.ofNat (c.toNat + 32) else c

/-- `.replace(' ', '-')` as a character map. -/
def spaceToHyphen (cs : List Char) : List Char :=
  cs.map fun c => if c = ' ' then '-' else c

/-- `.replace('&', 'and')`. -/
def ampToAnd : List Char → List Char
  | [] => []
  | c :: rest => if c = '&' then 'a' :: 'n' :: 'd' :: ampToAnd rest else c :: ampToAnd rest

/-- `.replace('/', '')`. -/
def removeSlash : List Char → List Char
  | [] => []
  | c :: rest => if c = '/' then removeSlash rest else c :: removeSlash rest

/-- The slug of line 193:
`task_name.lower().replace(' ', '-').replace('&', 'and').replace('/', '')`. -/
def slug (task_name : List Char) : List Char :=
  removeSlash (ampToAnd (spaceToHyphen (task_name.map asciiLower)))

/-- The base artifact name of line 194: `{base_filename}_output_{slug}`. -/
def outputBaseName (base_filename : List Char) (t : Task) : List Char :=
  base_filename ++ lstr "_output_" ++ slug t.task_name

/-- The run output directory name of line 148:
`{base_filename}_{timestamp}`. -/
def runDirName (base_filename : List Char) (ts : Timestamp) : List Char :=
  base_filename ++ '_' :: fmtTimestamp ts

/-- Path of the markdown artifact (`md_dir / f"{output_base_name}.md"`). -/
def mdPathOf (base_filename dir : List Char) (t : Task) : List Char :=
  dir ++ lstr "/markdown/" ++ outputBaseName base_filename t ++ lstr ".md"

/-- Path of the plaintext artifact. -/
def txtPathOf (base_filename dir : List Char) (t : Task) : List Char :=
  dir ++ lstr "/text/" ++ outputBaseName base_filename t ++ lstr ".txt"

/-- Path of the PDF artifact. -/
def pdfPathOf (base_filename dir : List Char) (t : Task) : List Char :=
  dir ++ lstr "/pdf/" ++ outputBaseName base_filename t ++ lstr ".pdf"

/-- `convert_md_to_pdf` (lines 55-83): the markdown-it and weasyprint
backends are external, modelled by the oracle `render`; any exception is
caught and reported as `False` (the `st.warning` path), never propagated. -/
def convert_md_to_pdf (render : List Char → Except Unit Unit)
    (md_content : List Char) : Bool :=
  match render md_content with
  | .ok _ => true
  | .error _ => false

/-- The artifacts appended for one completed task (lines 196-213):
markdown, then plaintext, then the PDF only when rendering succeeded. -/
def artifactsFor (render : List Char → Except Unit Unit)
    (base_filename dir : List Char) (t : Task) (content : List Char) :
    List (List Char) :=
  [mdPathOf base_filename dir t, txtPathOf base_filename dir t] ++
    (if convert_md_to_pdf render content then [pdfPathOf base_filename dir t] else [])

/-- The per-task loop of `analyze_transcript` (lines 167-215): tasks are
processed in the given order; any generation failure propagates. -/
def tasksLoop (gen : Gen) (render : List Char → Except Unit Unit)
    (master_prompt base_filename dir : List Char) (chunks : List (List Char)) :
    List Task → Except Unit (Nat × List (List Char))
  | [] => .ok (0, [])
  | t :: rest => do
    let o ← runTask gen master_prompt t.prompt chunks
    let (tks, files) ← tasksLoop gen render master_prompt base_filename dir chunks rest
    .ok (o.tokens + tks, artifactsFor render base_filename dir t o.content ++ files)

/-- The tuple returned by `analyze_transcript`:
`(success, total_tokens_used, generated_files, run_output_dir)`. -/
structure RunOutput where
  success : Bool
  total_tokens : Nat
  generated_files : List (List Char)
  run_output_dir : Option (List Char)
  deriving DecidableEq

/-- `analyze_transcript` (lines 138-225).  The transcript is chunked once
with the fixed `chunk_size=40000`, `chunk_overlap=2000` splitter (the
splitter itself is spec-modelled, see `splitText`); each selected task runs
map phase plus synthesis and appends its artifacts; the catch-all `except`
turns any generation failure into `(False, 0, [], None)`. -/
def analyze_transcript (gen : Gen) (render : List Char → Except Unit Unit)
    (transcript_content base_filename : List Char) (selected_tasks : List Task)
    (master_prompt : List Char) (now : Timestamp) : RunOutput :=
  match tasksLoop gen render master_prompt base_filename
      (runDirName base_filename now) (chunkText transcript_content) selected_tasks with
  | .ok (tks, files) => ⟨true, tks, files, some (runDirName base_filename now)⟩
  | .error _ => ⟨false, 0, [], none⟩

/-- A generation oracle that always answers, built from a total response
function: models a run in which no remote call fails. -/
def okGen (g : List Char → GenResponse) : Gen := fun p => .ok (g p)

/-- The map-phase result texts of a fully-answering oracle, in chunk
order. -/
def mapTextsOf (g : List Char → GenResponse) (original_prompt : List Char)
    (chunks : List (List Char)) : List (List Char) :=
  chunks.map fun c => (g (chunkPromptOf original_prompt c)).text

/-- The synthesis prompt eventually issued for a task under a
fully-answering oracle. -/
def synthPromptOfRun (g : List Char → GenResponse)
    (master_prompt original_prompt : List Char) (chunks : List (List Char)) :
    List Char :=
  synthesisPromptOf master_prompt original_prompt (mapTextsOf g original_prompt chunks)

/-- The synthesized content of a task under a fully-answering oracle. -/
def taskContentOf (g : List Char → GenResponse)
    (master_prompt original_prompt : List Char) (chunks : List (List Char)) :
    List Char :=
  (g (synthPromptOfRun g master_prompt original_prompt chunks)).text

/-- All prompts issued for one task: one per chunk, in chunk order, then
the single synthesis prompt. -/
def callsOfTask (g : List Char → GenResponse)
    (master_prompt original_prompt : List Char) (chunks : List (List Char)) :
    List (List Char) :=
  chunks.map (chunkPromptOf original_prompt) ++
    [synthPromptOfRun g master_prompt original_prompt chunks]

/-- All prompts issued during a whole run, grouped by task in task order. -/
def allCallsOf (g : List Char → GenResponse) (master_prompt : List Char)
    (chunks : List (List Char)) (tasks : List Task) : List (List Char) :=
  (tasks.map fun t => callsOfTask g master_prompt t.prompt chunks).flatten

/-! ### Runner lemmas -/

theorem except_ok_bind {α β : Type} (a : α) (f : α → Except Unit β) :
    (Except.ok a >>= f : Except Unit β) = f a := rfl

theorem mapPhase_okGen (g : List Char → GenResponse) (p : List Char)
    (chunks : List (List Char)) :
    mapPhase (okGen g) p chunks =
      .ok (mapTextsOf g p chunks,
        ((chunks.map fun c => (g (chunkPromptOf p c)).usage.getD 0)).sum,
        chunks.map (chunkPromptOf p)) := by
  induction chunks with
  | nil => rfl
  | cons c rest ih =>
    rw [mapPhase]
    show (okGen g (chunkPromptOf p c) >>= _) = _
    rw [okGen, except_ok_bind, ih, except_ok_bind]
    rfl

theorem runTask_okGen (g : List Char → GenResponse)
    (master_prompt original_prompt : List Char) (chunks : List (List Char)) :
    runTask (okGen g) master_prompt original_prompt chunks =
      .ok ⟨taskContentOf g master_prompt original_prompt chunks,
        (chunks.map fun c => (g (chunkPromptOf original_prompt c)).usage.getD 0).sum +
          (g (synthPromptOfRun g master_prompt original_prompt chunks)).usage.getD 0,
        callsOfTask g master_prompt original_prompt chunks⟩ := by
  rw [runTask, mapPhase_okGen, except_ok_bind]
  rfl

theorem taskTokens_as_calls (g : List Char → GenResponse)
    (master_prompt original_prompt : List Char) (chunks : List (List Char)) :
    (chunks.map fun c => (g (chunkPromptOf original_prompt c)).usage.getD 0).sum +
        (g (synthPromptOfRun g master_prompt original_prompt chunks)).usage.getD 0 =
      ((callsOfTask g master_prompt original_prompt chunks).map
        fun pr => (g pr).usage.getD 0).sum := by
  simp only [callsOfTask, List.map_append, List.sum_append, List.map_map,
    List.map_cons, List.map_nil, List.sum_cons, List.sum_nil]
  rfl

theorem tasksLoop_okGen (g : List Char → GenResponse)
    (render : List Char → Except Unit Unit)
    (master_prompt base_filename dir : List Char) (chunks : List (List Char))
    (tasks : List Task) :
    tasksLoop (okGen g) render master_prompt base_filename dir chunks tasks =
      .ok (((allCallsOf g master_prompt chunks tasks).map
              fun pr => (g pr).usage.getD 0).sum,
        (tasks.map fun t => artifactsFor render base_filename dir t
            (taskContentOf g master_prompt t.prompt chunks)).flatten) := by
  induction tasks with
  | nil => rfl
  | cons t rest ih =>
    rw [tasksLoop, runTask_okGen, except_ok_bind, ih, except_ok_bind]
    refine congrArg Except.ok (Prod.ext ?_ rfl)
    show ((chunks.map fun c => (g (chunkPromptOf t.prompt c)).usage.getD 0).sum +
        (g (synthPromptOfRun g master_prompt t.prompt chunks)).usage.getD 0) + _ = _
    rw [taskTokens_as_calls]
    simp [allCallsOf, List.sum_append]

theorem analyze_transcript_okGen (g : List Char → GenResponse)
    (render : List Char → Except Unit Unit)
    (transcript_content base_filename master_prompt : List Char)
    (tasks : List Task) (now : Timestamp) :
    analyze_transcript (okGen g) render transcript_content base_filename
        tasks master_prompt now =
      ⟨true,
        ((allCallsOf g master_prompt (chunkText transcript_content) tasks).map
          fun pr => (g pr).usage.getD 0).sum,
        (tasks.map fun t => artifactsFor render base_filename
            (runDirName base_filename now) t
            (taskContentOf g master_prompt t.prompt (chunkText transcript_content))).flatten,
        some (runDirName base_filename now)⟩ := by
  rw [analyze_transcript, tasksLoop_okGen]

theorem except_error_bind {α β : Type} (e : Unit) (f : α → Except Unit β) :
    (Except.error e >>= f : Except Unit β) = Except.error e := rfl

theorem tasksLoop_error (gen : Gen) (render : List Char → Except Unit Unit)
    (master_prompt base_filename dir : List Char) (chunks : List (List Char)) :
    ∀ (tasks : List Task) (t : Task), t ∈ tasks →
      runTask gen master_prompt t.prompt chunks = .error () →
      tasksLoop gen render master_prompt base_filename dir chunks tasks = .error () := by
  intro tasks
  induction tasks with
  | nil => intro t ht _; simp at ht
  | cons hd tl ih =>
    intro t ht he
    rcases List.mem_cons.mp ht with rfl | ht
    · rw [tasksLoop, he, except_error_bind]
    · cases hh : runTask gen master_prompt hd.prompt chunks with
      | error e => cases e; rw [tasksLoop, hh, except_error_bind]
      | ok o =>
        rw [tasksLoop, hh, except_ok_bind, ih t ht he, except_error_bind]

theorem analyze_transcript_of_error (gen : Gen)
    (render : List Char → Except Unit Unit)
    (transcript_content base_filename master_prompt : List Char)
    (tasks : List Task) (now : Timestamp)
    (h : tasksLoop gen render master_prompt base_filename
        (runDirName base_filename now) (chunkText transcript_content) tasks =
      .error ()) :
    analyze_transcript gen render transcript_content base_filename tasks
        master_prompt now = ⟨false, 0, [], none⟩ := by
  rw [analyze_transcript, h]

/-- The artifacts one task contributes inside a successful run of an
arbitrary generation oracle. -/
def taskFilesOf (gen : Gen) (render : List Char → Except Unit Unit)
    (master_prompt base_filename dir : List Char) (chunks : List (List Char))
    (t : Task) : List (List Char) :=
  match runTask gen master_prompt t.prompt chunks with
  | .ok o => artifactsFor render base_filename dir t o.content
  | .error _ => []

theorem tasksLoop_ok_files (gen : Gen) (render : List Char → Except Unit Unit)
    (master_prompt base_filename dir : List Char) (chunks : List (List Char)) :
    ∀ (tasks : List Task) (tk : Nat) (files : List (List Char)),
      tasksLoop gen render master_prompt base_filename dir chunks tasks =
          .ok (tk, files) →
      files = (tasks.map
        (taskFilesOf gen render master_prompt base_filename dir chunks)).flatten := by
  intro tasks
  induction tasks with
  | nil =>
    intro tk files h
    rw [tasksLoop] at h
    cases h
    rfl
  | cons hd tl ih =>
    intro tk files h
    cases hh : runTask gen master_prompt hd.prompt chunks with
    | error e =>
      cases e
      rw [tasksLoop, hh, except_error_bind] at h
      cases h
    | ok o =>
      rw [tasksLoop, hh, except_ok_bind] at h
      cases hrest : tasksLoop gen render master_prompt base_filename dir chunks tl with
      | error e =>
        cases e
        rw [hrest, except_error_bind] at h
        cases h
      | ok pr =>
        obtain ⟨tk', files'⟩ := pr
        rw [hrest, except_ok_bind] at h
        cases h
        rw [List.map_cons, List.flatten_cons, ← ih tk' files' hrest]
        rw [taskFilesOf, hh]

/-! ## Concrete scenarios used by witnesses and counterexamples -/

/-- Boolean test whether `pat` occurs as a contiguous segment of a text. -/
def containsSeg (pat : List Char) : List Char → Bool
  | [] => pat.isEmpty
  | c :: rest => pat.isPrefixOf (c :: rest) || containsSeg pat rest

def cexTask : Task := ⟨lstr "Summary", lstr "Summarize"⟩

def cexTaskB : Task := ⟨lstr "Key Points", lstr "List key points"⟩

def cexMaster : List Char := lstr "MP"

def cexNow : Timestamp := ⟨2026, 10, 12, 0, 0, 0⟩

/-- A PDF rendering backend that always succeeds. -/
def alwaysRender : List Char → Except Unit Unit := fun _ => .ok ()

/-- A PDF rendering backend that always fails. -/
def neverRender : List Char → Except Unit Unit := fun _ => .error ()

/-- A generation oracle that fails exactly on synthesis prompts (they are
the only prompts containing the raw-results marker) and reports 5 tokens on
every map call. -/
def failSynthGen : Gen := fun p =>
  if containsSeg (lstr "--- RAW INTERMEDIATE RESULTS ---") p then .error ()
  else .ok ⟨lstr "r", some 5⟩

/-- A generation oracle that fails on every call. -/
def failAllGen : Gen := fun _ => .error ()

/-- A fully-answering response function reporting 7 tokens per call. -/
def plainGen : List Char → GenResponse := fun _ => ⟨lstr "out", some 7⟩

/-- A fully-answering response function that reports no usage metadata. -/
def noUsageGen : List Char → GenResponse := fun _ => ⟨lstr "out", none⟩

/-- The counterexample text for claim C1: 39000 `x` characters, a newline,
then 39000 `y` characters; its two atomic pieces are longer than
`chunk_size - overlap`. -/
def cexA : List Char := List.replicate 39000 'x' ++ ['\n']

def cexB : List Char := List.replicate 39000 'y'

def cexText : List Char := List.replicate 39000 'x' ++ '\n' :: List.replicate 39000 'y'

theorem cexA_length : cexA.length = 39001 := by
  rw [cexA, List.length_append, List.length_replicate]
  rfl

theorem cexB_length : cexB.length = 39000 := by
  rw [cexB, List.length_replicate]

theorem cexText_length : cexText.length = 78001 := by
  rw [cexText, List.length_append, List.length_replicate, List.length_cons,
    List.length_replicate]

theorem cexText_ne_nil : cexText ≠ [] := by
  intro h
  have hlen := congrArg List.length h
  rw [cexText_length] at hlen
  simp at hlen

theorem cex_count_x : List.count '\n' (List.replicate 39000 'x') = 0 :=
  List.count_eq_zero.mpr
    (fun hm => absurd (List.eq_of_mem_replicate hm) (by decide))

theorem cex_count_y : List.count '\n' (List.replicate 39000 'y') = 0 :=
  List.count_eq_zero.mpr
    (fun hm => absurd (List.eq_of_mem_replicate hm) (by decide))

theorem cex_count : List.count '\n' cexText = 1 := by
  simp only [cexText, List.count_append, List.count_cons, cex_count_x, cex_count_y]
  decide

theorem cex_step1 : splitKeepSep ['\n', '\n'] cexText = [cexText] := by
  apply splitKeepSep_noInfix
  · intro hinf
    have hcount := hinf.sublist.count_le '\n'
    rw [cex_count] at hcount
    have e2 : List.count '\n' (['\n', '\n'] : List Char) = 2 := by decide
    rw [e2] at hcount
    omega
  · exact cexText_ne_nil

theorem cex_step2 : splitKeepSep ['\n'] cexText = [cexA, cexB] := by
  have hmem : '\n' ∉ List.replicate 39000 'x' := by
    intro hm
    exact absurd (List.eq_of_mem_replicate hm) (by decide)
  have h1 := splitKeepSep_single '\n' (List.replicate 39000 'x')
    (List.replicate 39000 'y') hmem
  have hni : ¬ (['\n'] <:+: List.replicate 39000 'y') := by
    intro hinf
    have hs := hinf.sublist
    rw [List.singleton_sublist] at hs
    exact absurd (List.eq_of_mem_replicate hs) (by decide)
  have hy_ne : List.replicate 39000 'y' ≠ ([] : List Char) := by
    intro h
    have hlen := congrArg List.length h
    simp only [List.length_replicate, List.length_nil] at hlen
    omega
  have h2 := splitKeepSep_noInfix ['\n'] (List.replicate 39000 'y') hni hy_ne
  show splitKeepSep ['\n'] (List.replicate 39000 'x' ++ '\n' :: List.replicate 39000 'y') = _
  rw [h1, h2]
  rfl

theorem cex_pieces : recSplit 40000 defaultSeparators cexText = [cexA, cexB] := by
  rw [defaultSeparators, recSplit, cex_step1]
  simp only [List.map_cons, List.map_nil, List.flatten_cons, List.flatten_nil,
    List.append_nil]
  rw [if_neg (by rw [cexText_length]; omega)]
  rw [recSplit, cex_step2]
  simp only [List.map_cons, List.map_nil, List.flatten_cons, List.flatten_nil,
    List.append_nil]
  rw [if_pos (by rw [cexA_length]; omega), if_pos (by rw [cexB_length]; omega)]
  rfl

theorem cex_chunks : chunkText cexText = [cexA, cexA.drop 38001 ++ cexB] := by
  rw [chunkText, splitText, cex_pieces]
  show mergeLoop 40000 2000 cexA [cexB] = _
  rw [mergeLoop]
  rw [if_neg (by rw [cexA_length, cexB_length]; omega)]
  rw [cexA_length, cexB_length]
  rw [show min 2000 (min 39001 (40000 - 39000)) = 1000 by norm_num]
  rw [mergeLoop]
  simp only [lastChars]
  rw [cexA_length]

/-! ## The claims -/

/-- Claim C1, corrected part (counterexample): for the non-empty text
`cexText` (39000 `x`, one newline, 39000 `y`), stitching the chunks of the
fixed `chunk_size=40000` / `overlap=2000` chunker by dropping the first
2000 characters of every chunk after the first does not reconstruct the
text: the pieces are longer than `chunk_size - overlap`, so the second
chunk only carries a 1000-character overlap prefix and stitching loses 1000
characters. -/
theorem c1_counterexample :
    cexText ≠ [] ∧ stitch 2000 (chunkText cexText) ≠ cexText := by
  constructor
  · exact cexText_ne_nil
  · rw [cex_chunks]
    intro h
    have hlen := congrArg List.length h
    simp only [stitch, List.map_cons, List.map_nil, List.flatten_cons,
      List.flatten_nil, List.append_nil, List.length_append, List.length_drop,
      cexA_length, cexB_length, cexText_length] at hlen
    omega

/-- Claim C1 (amended): for every non-empty text, the fixed
`chunk_size=40000` / `overlap=2000` chunker yields at least one chunk and
every chunk has length at most 40000; and, provided every atomic piece
produced by the recursive splitting is at most `chunk_size - overlap =
38000` characters long (the
amendment: the original claim asserted reconstruction for every text),
concatenating the chunks after dropping the first 2000 characters of every
chunk after the first reconstructs the text exactly. -/
theorem c1_chunker_amended (cs : List Char) (hne : cs ≠ []) :
    chunkText cs ≠ [] ∧ (∀ c ∈ chunkText cs, c.length ≤ 40000) ∧
      ((∀ p ∈ recSplit 40000 defaultSeparators cs, p.length ≤ 38000) →
        stitch 2000 (chunkText cs) = cs) := by
  refine ⟨splitText_ne_nil defaultSeparators 40000 2000 cs hne,
    splitText_length_le defaultSeparators 40000 2000 (by omega) cs,
    fun hp => ?_⟩
  exact stitch_splitText defaultSeparators 40000 2000 (by omega) cs
    (fun p hmem => by have := hp p hmem; omega)

/-- Witness for the amended claim C1 at the concrete document
`"Hello.\n\nWorld."`. -/
theorem c1_chunker_amended_witness :
    lstr "Hello.\n\nWorld." ≠ [] ∧
      (chunkText (lstr "Hello.\n\nWorld.") ≠ [] ∧
        (∀ c ∈ chunkText (lstr "Hello.\n\nWorld."), c.length ≤ 40000) ∧
        ((∀ p ∈ recSplit 40000 defaultSeparators (lstr "Hello.\n\nWorld."),
            p.length ≤ 38000) →
          stitch 2000 (chunkText (lstr "Hello.\n\nWorld.")) =
            lstr "Hello.\n\nWorld.")) :=
  ⟨by decide, c1_chunker_amended (lstr "Hello.\n\nWorld.") (by decide)⟩

/-- Claim C2: over a fully-answering generation oracle, one task's runner
issues exactly `N+1` prompts for `N` chunks: one chunk prompt per chunk in
chunk order followed by the single synthesis prompt, whose raw-results
segment is the separator-free concatenation (in chunk order) of the
per-chunk result texts. -/
theorem c2_task_runner_calls (g : List Char → GenResponse)
    (master_prompt original_prompt : List Char) (chunks : List (List Char)) :
    (runTask (okGen g) master_prompt original_prompt chunks).map TaskOutcome.calls =
        .ok (chunks.map (chunkPromptOf original_prompt) ++
          [synthesisPromptOf master_prompt original_prompt
            (mapTextsOf g original_prompt chunks)]) ∧
      (runTask (okGen g) master_prompt original_prompt chunks).map
          (fun o => o.calls.length) = .ok (chunks.length + 1) := by
  rw [runTask_okGen]
  refine ⟨rfl, ?_⟩
  show Except.ok (callsOfTask g master_prompt original_prompt chunks).length = _
  rw [callsOfTask]
  simp

/-- Counterexample to claim C3 as stated: with one selected task over a
one-chunk document, the map call succeeds and reports 5 tokens, the
synthesis call fails; `analyze_transcript` returns `(False, 0, [], None)`,
so the reported token count is 0 rather than the 5 tokens already spent,
and the returned failure value carries no task name at all. -/
theorem c3_counterexample :
    analyze_transcript failSynthGen alwaysRender (lstr "hello") (lstr "hello")
        [cexTask] cexMaster cexNow = ⟨false, 0, [], none⟩ ∧
      mapPhase failSynthGen cexTask.prompt (chunkText (lstr "hello")) =
        .ok ([lstr "r"], 5, [chunkPromptOf cexTask.prompt (lstr "hello")]) := by
  constructor
  · decide
  · decide

/-- Claim C3 (amended): if any generation call fails during any selected
task's map or reduce phase, the whole run aborts with no partial manifest:
the result is `(False, 0, [], None)` — an empty artifact list, no run
directory, and a token count of 0; the failing task's name and the tokens
already spent are not part of the returned failure (the amendment: the
original claim asserted they were carried). -/
theorem c3_abort_amended (gen : Gen) (render : List Char → Except Unit Unit)
    (transcript_content base_filename master_prompt : List Char)
    (tasks : List Task) (now : Timestamp) (t : Task)
    (ht : t ∈ tasks)
    (he : runTask gen master_prompt t.prompt (chunkText transcript_content) =
      .error ()) :
    analyze_transcript gen render transcript_content base_filename tasks
        master_prompt now = ⟨false, 0, [], none⟩ :=
  analyze_transcript_of_error gen render transcript_content base_filename
    master_prompt tasks now
    (tasksLoop_error gen render master_prompt base_filename
      (runDirName base_filename now) (chunkText transcript_content) tasks t ht he)

/-- Witness for the amended claim C3: a run whose every generation call
fails aborts with the failure tuple. -/
theorem c3_abort_amended_witness :
    cexTask ∈ [cexTask] ∧
      runTask failAllGen cexMaster cexTask.prompt (chunkText (lstr "hi")) =
        .error () ∧
      analyze_transcript failAllGen alwaysRender (lstr "hi") (lstr "hi")
        [cexTask] cexMaster cexNow = ⟨false, 0, [], none⟩ :=
  ⟨by decide, by decide,
    c3_abort_amended failAllGen alwaysRender (lstr "hi") (lstr "hi") cexMaster
      [cexTask] cexNow cexTask (by decide) (by decide)⟩

/-- Claim C4: over a fully-answering generation oracle the run succeeds and
its total token count is the exact sum, over every generation call issued
during the run (all map calls and all synthesis calls of all tasks, in
order), of the call's reported token count, a call without usage metadata
contributing exactly 0. -/
theorem c4_token_total (g : List Char → GenResponse)
    (render : List Char → Except Unit Unit)
    (transcript_content base_filename master_prompt : List Char)
    (tasks : List Task) (now : Timestamp) :
    (analyze_transcript (okGen g) render transcript_content base_filename tasks
        master_prompt now).success = true ∧
      (analyze_transcript (okGen g) render transcript_content base_filename tasks
          master_prompt now).total_tokens =
        ((allCallsOf g master_prompt (chunkText transcript_content) tasks).map
          fun pr => (g pr).usage.getD 0).sum := by
  rw [analyze_transcript_okGen]
  exact ⟨rfl, rfl⟩

/-- Claim C5: if PDF rendering fails for one task's content, the run still
succeeds; that task's markdown and plaintext artifacts are in the returned
artifact list, every other task contributes its artifacts unchanged, and
the failing task's artifact group is exactly its markdown and plaintext
paths — only the PDF artifact is omitted. -/
theorem c5_pdf_failure_isolated (g : List Char → GenResponse)
    (render : List Char → Except Unit Unit)
    (transcript_content base_filename master_prompt : List Char)
    (tasks : List Task) (now : Timestamp) (t : Task)
    (ht : t ∈ tasks)
    (hpdf : render (taskContentOf g master_prompt t.prompt
        (chunkText transcript_content)) = .error ()) :
    (analyze_transcript (okGen g) render transcript_content base_filename tasks
        master_prompt now).success = true ∧
      mdPathOf base_filename (runDirName base_filename now) t ∈
        (analyze_transcript (okGen g) render transcript_content base_filename
          tasks master_prompt now).generated_files ∧
      txtPathOf base_filename (runDirName base_filename now) t ∈
        (analyze_transcript (okGen g) render transcript_content base_filename
          tasks master_prompt now).generated_files ∧
      (analyze_transcript (okGen g) render transcript_content base_filename
          tasks master_prompt now).generated_files =
        (tasks.map fun u => artifactsFor render base_filename
          (runDirName base_filename now) u
          (taskContentOf g master_prompt u.prompt
            (chunkText transcript_content))).flatten ∧
      artifactsFor render base_filename (runDirName base_filename now) t
          (taskContentOf g master_prompt t.prompt (chunkText transcript_content)) =
        [mdPathOf base_filename (runDirName base_filename now) t,
          txtPathOf base_filename (runDirName base_filename now) t] := by
  have hart : artifactsFor render base_filename (runDirName base_filename now) t
      (taskContentOf g master_prompt t.prompt (chunkText transcript_content)) =
      [mdPathOf base_filename (runDirName base_filename now) t,
        txtPathOf base_filename (runDirName base_filename now) t] := by
    rw [artifactsFor, convert_md_to_pdf, hpdf]
    rfl
  rw [analyze_transcript_okGen]
  refine ⟨rfl, ?_, ?_, rfl, hart⟩
  · exact List.mem_flatten.mpr ⟨_, List.mem_map.mpr ⟨t, ht, rfl⟩,
      by rw [hart]; simp⟩
  · exact List.mem_flatten.mpr ⟨_, List.mem_map.mpr ⟨t, ht, rfl⟩,
      by rw [hart]; simp⟩

/-- Witness for claim C5: two tasks, rendering always failing; the first
task's markdown and plaintext artifacts are present, its group has no
PDF. -/
theorem c5_pdf_failure_isolated_witness :
    cexTask ∈ [cexTask, cexTaskB] ∧
      neverRender (taskContentOf plainGen cexMaster cexTask.prompt
        (chunkText (lstr "hi"))) = .error () ∧
      ((analyze_transcript (okGen plainGen) neverRender (lstr "hi") (lstr "hi")
          [cexTask, cexTaskB] cexMaster cexNow).success = true ∧
        mdPathOf (lstr "hi") (runDirName (lstr "hi") cexNow) cexTask ∈
          (analyze_transcript (okGen plainGen) neverRender (lstr "hi") (lstr "hi")
            [cexTask, cexTaskB] cexMaster cexNow).generated_files ∧
        txtPathOf (lstr "hi") (runDirName (lstr "hi") cexNow) cexTask ∈
          (analyze_transcript (okGen plainGen) neverRender (lstr "hi") (lstr "hi")
            [cexTask, cexTaskB] cexMaster cexNow).generated_files ∧
        (analyze_transcript (okGen plainGen) neverRender (lstr "hi") (lstr "hi")
            [cexTask, cexTaskB] cexMaster cexNow).generated_files =
          ([cexTask, cexTaskB].map fun u => artifactsFor neverRender (lstr "hi")
            (runDirName (lstr "hi") cexNow) u
            (taskContentOf plainGen cexMaster u.prompt
              (chunkText (lstr "hi")))).flatten ∧
        artifactsFor neverRender (lstr "hi") (runDirName (lstr "hi") cexNow)
            cexTask
            (taskContentOf plainGen cexMaster cexTask.prompt
              (chunkText (lstr "hi"))) =
          [mdPathOf (lstr "hi") (runDirName (lstr "hi") cexNow) cexTask,
            txtPathOf (lstr "hi") (runDirName (lstr "hi") cexNow) cexTask]) :=
  ⟨by decide, by decide,
    c5_pdf_failure_isolated plainGen neverRender (lstr "hi") (lstr "hi")
      cexMaster [cexTask, cexTaskB] cexNow cexTask (by decide) (by decide)⟩

/-- Counterexample to claim C6 as stated: on `"a # b"` the code transform
removes the mid-line `"# "` (yielding `"a b"`), while the transform the
claim describes, which strips heading markers only as line-leading
prefixes, leaves `"a # b"` unchanged. -/
theorem c6_counterexample :
    convert_md_to_txt (lstr "a # b") ≠ claimedMdToTxt (lstr "a # b") ∧
      convert_md_to_txt (lstr "a # b") = lstr "a b" ∧
      claimedMdToTxt (lstr "a # b") = lstr "a # b" :=
  ⟨by decide, by decide, by decide⟩

/-- Claim C6 (amended): the plaintext transform equals the composite that
removes every leftmost match of one-to-six `#` followed by a space anywhere
in the text (not only line-leading heading markers), removes bold, italic
and inline-code delimiters while keeping the (same-line, non-greedy) inner
text, removes line-leading list dash markers, and pads every pipe with one
space on each side — and performs no other changes. -/
theorem c6_transform_amended (md_content : List Char) :
    convert_md_to_txt md_content = amendedMdToTxt md_content := by
  rw [convert_md_to_txt, amendedMdToTxt, stripHashScan_eq_leftmost]

/-- Claim C7: the plaintext transform is a total function: it returns a
string for every input, including the empty string and strings with
unmatched formatting delimiters (shown at `"**a"`, whose unmatched bold
delimiters are handled without error). -/
theorem c7_transform_total :
    (∀ s : List Char, ∃ t : List Char, convert_md_to_txt s = t) ∧
      convert_md_to_txt [] = [] ∧
      convert_md_to_txt (lstr "**a") = lstr "a" :=
  ⟨fun s => ⟨convert_md_to_txt s, rfl⟩, by decide, by decide⟩

/-- Claim C8: in a successful run every artifact path is, for some selected
task, the run directory `{document_stem}_{YYYY-MM-DD_HH-MM-SS}` followed by
a format subdirectory and the base file name
`{document_stem}_output_{slug(task_name)}` with extension `.md`, `.txt` or
`.pdf`, where `slug` lowercases the task name, replaces spaces with
hyphens, replaces `&` with `and` and removes `/`. -/
theorem c8_artifact_naming (g : List Char → GenResponse)
    (render : List Char → Except Unit Unit)
    (transcript_content base_filename master_prompt : List Char)
    (tasks : List Task) (now : Timestamp) (f : List Char)
    (hf : f ∈ (analyze_transcript (okGen g) render transcript_content
        base_filename tasks master_prompt now).generated_files) :
    (analyze_transcript (okGen g) render transcript_content base_filename tasks
        master_prompt now).run_output_dir =
      some (base_filename ++ '_' :: fmtTimestamp now) ∧
    ∃ t ∈ tasks,
      f = (base_filename ++ '_' :: fmtTimestamp now) ++ lstr "/markdown/" ++
            (base_filename ++ lstr "_output_" ++ slug t.task_name) ++ lstr ".md" ∨
      f = (base_filename ++ '_' :: fmtTimestamp now) ++ lstr "/text/" ++
            (base_filename ++ lstr "_output_" ++ slug t.task_name) ++ lstr ".txt" ∨
      f = (base_filename ++ '_' :: fmtTimestamp now) ++ lstr "/pdf/" ++
            (base_filename ++ lstr "_output_" ++ slug t.task_name) ++ lstr ".pdf" := by
  rw [analyze_transcript_okGen] at hf ⊢
  refine ⟨rfl, ?_⟩
  rcases List.mem_flatten.mp hf with ⟨l, hl, hfl⟩
  rcases List.mem_map.mp hl with ⟨t, htt, rfl⟩
  refine ⟨t, htt, ?_⟩
  rw [artifactsFor] at hfl
  rcases List.mem_append.mp hfl with h2 | h2
  · rcases List.mem_cons.mp h2 with rfl | h2
    · left; rfl
    · rw [List.mem_singleton] at h2
      subst h2
      right; left; rfl
  · by_cases hb : convert_md_to_pdf render (taskContentOf g master_prompt
        t.prompt (chunkText transcript_content)) = true
    · rw [if_pos hb, List.mem_singleton] at h2
      subst h2
      right; right; rfl
    · rw [if_neg hb] at h2
      simp at h2

/-- Witness for claim C8 at a concrete run with one task named
`"Action Items & Next/Steps"`. -/
theorem c8_artifact_naming_witness :
    lstr "doc_2026-10-12_00-00-00/markdown/doc_output_action-items-and-nextsteps.md" ∈
        (analyze_transcript (okGen plainGen) alwaysRender (lstr "hi") (lstr "doc")
          [⟨lstr "Action Items & Next/Steps", lstr "collect"⟩] cexMaster
          cexNow).generated_files ∧
      ((analyze_transcript (okGen plainGen) alwaysRender (lstr "hi") (lstr "doc")
          [⟨lstr "Action Items & Next/Steps", lstr "collect"⟩] cexMaster
          cexNow).run_output_dir =
        some (lstr "doc" ++ '_' :: fmtTimestamp cexNow) ∧
      ∃ t ∈ [(⟨lstr "Action Items & Next/Steps", lstr "collect"⟩ : Task)],
        lstr "doc_2026-10-12_00-00-00/markdown/doc_output_action-items-and-nextsteps.md" =
            (lstr "doc" ++ '_' :: fmtTimestamp cexNow) ++ lstr "/markdown/" ++
              (lstr "doc" ++ lstr "_output_" ++ slug t.task_name) ++ lstr ".md" ∨
        lstr "doc_2026-10-12_00-00-00/markdown/doc_output_action-items-and-nextsteps.md" =
            (lstr "doc" ++ '_' :: fmtTimestamp cexNow) ++ lstr "/text/" ++
              (lstr "doc" ++ lstr "_output_" ++ slug t.task_name) ++ lstr ".txt" ∨
        lstr "doc_2026-10-12_00-00-00/markdown/doc_output_action-items-and-nextsteps.md" =
            (lstr "doc" ++ '_' :: fmtTimestamp cexNow) ++ lstr "/pdf/" ++
              (lstr "doc" ++ lstr "_output_" ++ slug t.task_name) ++ lstr ".pdf") :=
  ⟨by decide,
    c8_artifact_naming plainGen alwaysRender (lstr "hi") (lstr "doc") cexMaster
      [⟨lstr "Action Items & Next/Steps", lstr "collect"⟩] cexNow
      (lstr "doc_2026-10-12_00-00-00/markdown/doc_output_action-items-and-nextsteps.md")
      (by decide)⟩

/-- Claim C9: the empty document yields zero chunks; each task's runner then
issues no map calls and exactly its single synthesis call, whose raw-results
segment is empty; the run still succeeds and every selected task still
contributes its artifacts. -/
theorem c9_empty_document :
    chunkText [] = [] ∧
      (∀ (g : List Char → GenResponse) (master_prompt original_prompt : List Char),
        runTask (okGen g) master_prompt original_prompt (chunkText []) =
          .ok ⟨(g (synthesisPromptOf master_prompt original_prompt [])).text,
            (g (synthesisPromptOf master_prompt original_prompt [])).usage.getD 0,
            [synthesisPromptOf master_prompt original_prompt []]⟩) ∧
      (∀ (g : List Char → GenResponse) (render : List Char → Except Unit Unit)
          (base_filename master_prompt : List Char) (tasks : List Task)
          (now : Timestamp),
        (analyze_transcript (okGen g) render [] base_filename tasks master_prompt
            now).success = true ∧
        (analyze_transcript (okGen g) render [] base_filename tasks master_prompt
            now).generated_files =
          (tasks.map fun t => artifactsFor render base_filename
            (runDirName base_filename now) t
            ((g (synthesisPromptOf master_prompt t.prompt [])).text)).flatten) := by
  refine ⟨rfl, fun g master_prompt original_prompt => ?_, fun g render bf mp tasks now => ?_⟩
  · rw [show chunkText [] = [] from rfl, runTask_okGen]
    simp [taskContentOf, synthPromptOfRun, mapTextsOf, callsOfTask]
  · rw [analyze_transcript_okGen]
    refine ⟨rfl, ?_⟩
    show (tasks.map fun t => artifactsFor render bf (runDirName bf now) t
      (taskContentOf g mp t.prompt (chunkText []))).flatten = _
    simp only [taskContentOf, synthPromptOfRun, mapTextsOf,
      show chunkText ([] : List Char) = [] from rfl, List.map_nil]

/-- Claim C10: in the artifact list of any successful run, artifacts are
grouped by task in the given task order, each group listing the markdown
path, then the plaintext path, then the PDF path exactly when its rendering
succeeded. -/
theorem c10_artifact_order (gen : Gen) (render : List Char → Except Unit Unit)
    (transcript_content base_filename master_prompt : List Char)
    (tasks : List Task) (now : Timestamp)
    (h : (analyze_transcript gen render transcript_content base_filename tasks
        master_prompt now).success = true) :
    (analyze_transcript gen render transcript_content base_filename tasks
        master_prompt now).generated_files =
      (tasks.map (taskFilesOf gen render master_prompt base_filename
        (runDirName base_filename now) (chunkText transcript_content))).flatten := by
  cases hloop : tasksLoop gen render master_prompt base_filename
      (runDirName base_filename now) (chunkText transcript_content) tasks with
  | error e =>
    cases e
    rw [analyze_transcript, hloop] at h
    exact absurd h (by simp)
  | ok pr =>
    obtain ⟨tk, files⟩ := pr
    rw [analyze_transcript, hloop]
    exact tasksLoop_ok_files gen render master_prompt base_filename
      (runDirName base_filename now) (chunkText transcript_content) tasks tk files hloop

/-- Witness for claim C10 at a concrete successful two-task run. -/
theorem c10_artifact_order_witness :
    (analyze_transcript (okGen plainGen) alwaysRender (lstr "hi") (lstr "hi")
        [cexTask, cexTaskB] cexMaster cexNow).success = true ∧
      (analyze_transcript (okGen plainGen) alwaysRender (lstr "hi") (lstr "hi")
          [cexTask, cexTaskB] cexMaster cexNow).generated_files =
        ([cexTask, cexTaskB].map (taskFilesOf (okGen plainGen) alwaysRender
          cexMaster (lstr "hi") (runDirName (lstr "hi") cexNow)
          (chunkText (lstr "hi")))).flatten :=
  ⟨by decide,
    c10_artifact_order (okGen plainGen) alwaysRender (lstr "hi") (lstr "hi")
      cexMaster [cexTask, cexTaskB] cexNow (by decide)⟩

end ScriptRipper
